import Mathlib

/-!
Verification development for the univer repository fragment:

* `ImageCacheMap` / `SheetCellCacheManagerService`
  (src/packages/docs-mention-ui/src/commands/commands/doc-mention.command.ts)
* `AutoWidthController`
  (src/packages/sheets-ui/src/controllers/auto-width.controller.ts)

The TypeScript `Map` objects are embedded as Lean functions with pointwise
update (`fun k => if k = key then ... else ...`); this is extensionally
faithful because the source never iterates over `_map` or `_poistionMap`
as a whole, only over single position buckets (which are kept as lists in
insertion order).  Calls to `disposable.dispose()` are recorded in an
append-only log of disposable identities (`Nat` ids), so "disposed n
times" is the multiplicity of the id in the log.
-/

namespace Univer

/-- Load state of a cache entry (`status: 'loading' | 'loaded' | 'error'`). -/
inductive LoadStatus where
  | loading
  | loaded
  | error
deriving DecidableEq, Repr

/-- Embeds the `IImageCache` record.  The `image: HTMLImageElement` field is
not modelled (no claim depends on the pixel payload); the `disposable` field
is modelled by the identity `disp` of the underlying disposer. -/
structure IImageCache where
  row : Int
  col : Int
  key : String
  status : LoadStatus
  disp : Nat
deriving DecidableEq, Repr

/-- State of one `ImageCacheMap`, together with the dispose log and a
fresh-id counter used when the service creates entries.
`map` embeds `_map : Map<string, IImageCache>` and `pos` embeds
`_poistionMap : Map<number, Map<number, Set<string>>>`, flattened to a
partial function on `(row, col)` pairs; a bucket holds its keys in
insertion order, without duplicates, exactly like a JS `Set`. -/
structure MState where
  map : String → Option IImageCache
  pos : Int × Int → Option (List String)
  log : List Nat
  nextId : Nat

/-- The state of a freshly constructed `ImageCacheMap`. -/
def initState : MState :=
  { map := fun _ => none, pos := fun _ => none, log := [], nextId := 0 }

namespace ImageCacheMap

/-- Pointwise update of the primary index (JS `Map.set`). -/
def mapSet (m : String → Option IImageCache) (key : String) (v : IImageCache) :
    String → Option IImageCache :=
  fun k => if k = key then some v else m k

/-- Pointwise removal from the primary index (JS `Map.delete`). -/
def mapDel (m : String → Option IImageCache) (key : String) :
    String → Option IImageCache :=
  fun k => if k = key then none else m k

/-- Pointwise update of the position index at one `(row, col)` bucket. -/
def posSet (p : Int × Int → Option (List String)) (rc : Int × Int) (b : List String) :
    Int × Int → Option (List String) :=
  fun q => if q = rc then some b else p q

/-- Pointwise removal of one `(row, col)` bucket (`rowMap.delete(col)`). -/
def posDel (p : Int × Int → Option (List String)) (rc : Int × Int) :
    Int × Int → Option (List String) :=
  fun q => if q = rc then none else p q

/-- Removal of one key from the bucket at `rc`, when that bucket exists
(the source's `if (rowMap) { if (colMap) colMap.delete(key) }`). -/
def bucketErase (p : Int × Int → Option (List String)) (rc : Int × Int) (key : String) :
    Int × Int → Option (List String) :=
  match p rc with
  | some b => posSet p rc (b.erase key)
  | none => p

/-- Insertion into a bucket, JS-`Set`-style: a no-op when the key is
already a member, otherwise appended at the end. -/
def bucketAdd (b : List String) (key : String) : List String :=
  if key ∈ b then b else b ++ [key]

/-- Embeds `ImageCacheMap.update(key, row, col)`.  Note that the source
removes `key` from the bucket at the NEW `(row, col)` arguments (not at the
entry's previous position), then re-inserts it there unless a coordinate is
the `-1` sentinel. -/
def update (s : MState) (key : String) (row col : Int) : MState :=
  let s1 :=
    match s.map key with
    | some item =>
        { s with pos := bucketErase s.pos (row, col) key,
                 map := mapSet s.map key { item with row := row, col := col } }
    | none => s
  if row = -1 ∨ col = -1 then s1
  else
    { s1 with pos := posSet s1.pos (row, col) (bucketAdd ((s1.pos (row, col)).getD []) key) }

/-- Embeds `ImageCacheMap.set(key, imageCache)`: insert into the primary
index, then `update` to the entry's own coordinates. -/
def set (s : MState) (key : String) (e : IImageCache) : MState :=
  update { s with map := mapSet s.map key e } key e.row e.col

/-- Body of the eviction loop shared by `delete` and `deleteByPosition`:
look the key up, dispose its disposable when present, remove it from the
primary index. -/
def evictKey (s : MState) (key : String) : MState :=
  match s.map key with
  | some item => { s with log := s.log ++ [item.disp], map := mapDel s.map key }
  | none => { s with map := mapDel s.map key }

/-- Embeds `ImageCacheMap.delete(key)`: `update(key, -1, -1)`, then dispose
(when present) and remove from the primary index. -/
def delete (s : MState) (key : String) : MState :=
  evictKey (update s key (-1) (-1)) key

/-- Embeds `ImageCacheMap.deleteByPosition(row, col)`: when the bucket
exists, evict each of its keys in order, then drop the bucket. -/
def deleteByPosition (s : MState) (row col : Int) : MState :=
  match s.pos (row, col) with
  | some bucket =>
      let s1 := bucket.foldl evictKey s
      { s1 with pos := posDel s1.pos (row, col) }
  | none => s

/-- Embeds `ImageCacheMap.getByKey(key)`. -/
def getByKey (s : MState) (key : String) : Option IImageCache :=
  s.map key

/-- Embeds `ImageCacheMap._getByPosition(row, col)`: the bucket's keys,
looked up in the primary index, with misses filtered out
(`.map((key) => this._map.get(key)).filter(Boolean)`). -/
def getByPositionEntries (s : MState) (row col : Int) : List IImageCache :=
  ((s.pos (row, col)).getD []).filterMap s.map

/-- Embeds `makeRecord`: builds a record keyed by `item.key`; a later
entry with the same `key` field overwrites an earlier one, exactly as
repeated JS property assignment does. -/
def recordGet (entries : List IImageCache) (k : String) : Option IImageCache :=
  entries.foldl (fun acc e => if e.key = k then some e else acc) none

/-- Embeds `ImageCacheMap.getByPosition(row, col)` as the lookup function
of the returned record. -/
def getByPosition (s : MState) (row col : Int) (k : String) : Option IImageCache :=
  recordGet (getByPositionEntries s row col) k

end ImageCacheMap

/-- One operation on a cache scope, as issued by
`SheetCellCacheManagerService`.  A `set` carries the data of the entry the
service builds in `_handleMatrix`; the entry's disposable is the fresh
handle returned by `RefRangeService.watchRange`, modelled by drawing the
next unused id from the state's counter.  `teardown` is the service's
`dispose()`: the registered `disposeWithMe` callbacks unsubscribe the
command listener and the `activeSheet$` subscriptions, but touch neither
`_imageMaps` nor any entry's disposable, so on the cache state it is the
identity. -/
inductive CacheOp where
  | set (key : String) (row col : Int) (status : LoadStatus)
  | update (key : String) (row col : Int)
  | delete (key : String)
  | deleteByPosition (row col : Int)
  | teardown
deriving DecidableEq, Repr

/-- Applies one operation to the cache state. -/
def applyOp (s : MState) : CacheOp → MState
  | .set key row col status =>
      ImageCacheMap.set { s with nextId := s.nextId + 1 } key
        { row := row, col := col, key := key, status := status, disp := s.nextId }
  | .update key row col => ImageCacheMap.update s key row col
  | .delete key => ImageCacheMap.delete s key
  | .deleteByPosition row col => ImageCacheMap.deleteByPosition s row col
  | .teardown => s

/-- Runs a sequence of operations from the fresh state. -/
def runOps (ops : List CacheOp) : MState :=
  ops.foldl applyOp initState

/-- Embeds the callback the service registers with
`RefRangeService.watchRange` in `_handleMatrix`: on `(_, after)` it updates
the entry to `(after.startRow, after.startColumn)` when `after` is present
and deletes the entry when `after` is `null`. -/
def watchCallback (s : MState) (key : String) (after : Option (Int × Int)) : MState :=
  match after with
  | some a => ImageCacheMap.update s key a.1 a.2
  | none => ImageCacheMap.delete s key

/-- Embeds the body of `_handleMatrix` for a single visited cell: when the
cell has no drawings the position is bulk-evicted; otherwise the position's
record is snapshotted once (`const imageCache = map.getByPosition(row, col)`)
and each key of `drawingsOrder` that is absent from that snapshot gets a
fresh Loading entry (`map.set`) and a load is issued for it.  Returns the
new state and the keys whose load was issued, in order. -/
def handleCell (s : MState) (row col : Int) (drawingsOrder : List String) :
    MState × List String :=
  if drawingsOrder.isEmpty then (ImageCacheMap.deleteByPosition s row col, [])
  else
    let imageCache := ImageCacheMap.getByPosition s row col
    drawingsOrder.foldl
      (fun acc key =>
        match imageCache key with
        | some _ => acc
        | none =>
            (ImageCacheMap.set { acc.1 with nextId := acc.1.nextId + 1 } key
              { row := row, col := col, key := key, status := .loading,
                disp := acc.1.nextId },
             acc.2 ++ [key]))
      (s, [])

/-- State of `SheetCellCacheManagerService`: `_imageMaps`, a map from
`unitId` to a map from `subUnitId` to an `ImageCacheMap`. -/
structure ServiceState where
  imageMaps : String → Option (String → Option MState)

/-- Embeds `SheetCellCacheManagerService.getImageCache`: optional chaining
through both scope maps, then `getByPosition` (as the record's lookup
function). -/
def getImageCache (svc : ServiceState) (unitId subUnitId : String) (row col : Int) :
    Option (String → Option IImageCache) :=
  ((svc.imageMaps unitId).bind (fun um => um subUnitId)).map
    (fun m => ImageCacheMap.getByPosition m row col)

/-- Embeds `SheetCellCacheManagerService.getImageElementByKey`: optional
chaining through both scope maps, then `getByKey` (the `.image` projection
is not modelled; the entry stands for its image element). -/
def getImageElementByKey (svc : ServiceState) (unitId subUnitId key : String) :
    Option IImageCache :=
  ((svc.imageMaps unitId).bind (fun um => um subUnitId)).bind
    (fun m => ImageCacheMap.getByKey m key)

/-! Embedding of `AutoWidthController`
(src/packages/sheets-ui/src/controllers/auto-width.controller.ts). -/

/-- Embeds `IColAutoWidthInfo`: one derived column-width measurement. -/
structure IColAutoWidthInfo where
  col : Nat
  width : Int
deriving DecidableEq, Repr

/-- Embeds `IRange` (only its shape matters here; the layout computation
over ranges is external). -/
structure IRange where
  startRow : Nat
  startColumn : Nat
  endRow : Nat
  endColumn : Nat
deriving DecidableEq, Repr

/-- Embeds `ISetWorksheetColAutoWidthMutationParams`. -/
structure MutationParams where
  unitId : String
  subUnitId : String
  colsAutoWidthInfo : List IColAutoWidthInfo
deriving DecidableEq, Repr

/-- One synthesized mutation descriptor: a command id plus its parameter
bundle. -/
structure Mutation where
  id : String
  params : MutationParams
deriving DecidableEq, Repr

/-- The `{undos, redos}` pair returned by `getMutations` /
`getUndoRedoParamsOfColWidth`. -/
structure UndoRedoMutations where
  undos : List Mutation
  redos : List Mutation
deriving DecidableEq, Repr

/-- Id of `SetWorksheetColAutoWidthMutation` (imported from
`@univerjs/sheets`; its exact text is irrelevant to the claims). -/
def SetWorksheetColAutoWidthMutationId : String :=
  "sheet.mutation.set-worksheet-col-auto-width"

/-- Id of `SetWorksheetColIsAutoWidthCommand` (per the source comment,
`sheet.command.set-col-is-auto-width`). -/
def SetWorksheetColIsAutoWidthCommandId : String :=
  "sheet.command.set-col-is-auto-width"

/-- Id of `SetStyleCommand` (imported from `@univerjs/sheets`). -/
def SetStyleCommandId : String :=
  "sheet.command.set-style"

/-- Embeds `AFFECT_LAYOUT_STYLES = ['ff', 'fs', 'tr', 'tb']`. -/
def AFFECT_LAYOUT_STYLES : List String := ["ff", "fs", "tr", "tb"]

/-- Column-width table of the active worksheet, as a total function from
column index to width. -/
def Worksheet : Type := Nat → Int

/-- Modelled from the spec: `SetWorksheetColAutoWidthMutationFactory`
(imported from `@univerjs/sheets`, not under src/) builds the undo
parameters by reading, for every column of the redo payload, the previous
value from the worksheet as it is at synthesis time — per the spec, the
pre-mutation state ("previous values must be captured before the
triggering command mutates state"). -/
def SetWorksheetColAutoWidthMutationFactory (redoParams : MutationParams)
    (worksheet : Worksheet) : MutationParams :=
  { redoParams with
    colsAutoWidthInfo :=
      redoParams.colsAutoWidthInfo.map
        (fun i => { i with width := worksheet i.col }) }

/-- Writes a list of column-width measurements into the worksheet, in list
order. -/
def applyWidthInfos (infos : List IColAutoWidthInfo) (worksheet : Worksheet) :
    Worksheet :=
  infos.foldl (fun w i => fun c => if c = i.col then i.width else w c) worksheet

/-- Modelled from the spec: applying `SetWorksheetColAutoWidthMutation`
(not under src/) sets each listed column's width to the carried value, in
list order. -/
def applyColAutoWidthMutation (ps : MutationParams) (worksheet : Worksheet) :
    Worksheet :=
  applyWidthInfos ps.colsAutoWidthInfo worksheet

/-- Ambient state read by `AutoWidthController`: active sheet id, whether
`sheetSkeletonService.getCurrent()` is non-null, the skeleton's
`calculateAutoWidthInRange` (external, treated as an opaque pure function),
the worksheet's current column widths, the unit id, and the current
selection ranges (`getCurrentSelections()?.map((s) => s.range)`). -/
structure AutoWidthEnv where
  unitId : String
  subUnitId : String
  hasSkeleton : Bool
  calculateAutoWidthInRange : List IRange → List IColAutoWidthInfo
  worksheet : Worksheet
  selections : Option (List IRange)

/-- Embeds `AutoWidthController.getUndoRedoParamsOfColWidth(ranges)`:
empty pair when the sheet id is falsy or no skeleton is current; otherwise
one redo mutation carrying the freshly computed widths and one undo
mutation built by the factory from the current worksheet. -/
def getUndoRedoParamsOfColWidth (env : AutoWidthEnv) (ranges : List IRange) :
    UndoRedoMutations :=
  if env.subUnitId = "" ∨ env.hasSkeleton = false then { undos := [], redos := [] }
  else
    let colsAutoWidthInfo := env.calculateAutoWidthInRange ranges
    let redoParams : MutationParams :=
      { unitId := env.unitId, subUnitId := env.subUnitId,
        colsAutoWidthInfo := colsAutoWidthInfo }
    let undoParams := SetWorksheetColAutoWidthMutationFactory redoParams env.worksheet
    { undos := [{ id := SetWorksheetColAutoWidthMutationId, params := undoParams }],
      redos := [{ id := SetWorksheetColAutoWidthMutationId, params := redoParams }] }

/-- A command as seen by the `SetWorksheetColIsAutoWidthCommand`
interceptor: its id and its `params.ranges`. -/
structure ColIsAutoWidthCommand where
  id : String
  ranges : List IRange
deriving Repr

/-- A command as seen by the `SetStyleCommand` interceptor: its id and its
`params.style.type`. -/
structure StyleCommand where
  id : String
  styleType : String
deriving DecidableEq, Repr

/-- Embeds the first interceptor of `AutoWidthController._initialize`
(for `sheet.command.set-col-is-auto-width`). -/
def interceptColIsAutoWidth (env : AutoWidthEnv) (command : ColIsAutoWidthCommand) :
    UndoRedoMutations :=
  if command.id ≠ SetWorksheetColIsAutoWidthCommandId then { undos := [], redos := [] }
  else getUndoRedoParamsOfColWidth env command.ranges

/-- Embeds the second interceptor of `AutoWidthController._initialize`
(for `SetStyleCommand`): id check, layout-affecting style check, then the
current selections; any failure yields the empty pair. -/
def interceptSetStyle (env : AutoWidthEnv) (command : StyleCommand) :
    UndoRedoMutations :=
  if command.id ≠ SetStyleCommandId then { undos := [], redos := [] }
  else if ¬ (AFFECT_LAYOUT_STYLES.contains command.styleType) then
    { undos := [], redos := [] }
  else
    match env.selections with
    | none => { undos := [], redos := [] }
    | some sels =>
        if sels.isEmpty then { undos := [], redos := [] }
        else getUndoRedoParamsOfColWidth env sels

/-! Basic lemmas about the `ImageCacheMap` operations. -/

namespace ImageCacheMap

theorem mapSet_apply (m : String → Option IImageCache) (key : String) (v : IImageCache)
    (k : String) : mapSet m key v k = if k = key then some v else m k := rfl

theorem mapDel_apply (m : String → Option IImageCache) (key : String) (k : String) :
    mapDel m key k = if k = key then none else m k := rfl

theorem posSet_apply (p : Int × Int → Option (List String)) (rc : Int × Int)
    (b : List String) (q : Int × Int) : posSet p rc b q = if q = rc then some b else p q := rfl

theorem posDel_apply (p : Int × Int → Option (List String)) (rc : Int × Int)
    (q : Int × Int) : posDel p rc q = if q = rc then none else p q := rfl

theorem bucketErase_apply (p : Int × Int → Option (List String)) (rc : Int × Int)
    (key : String) (q : Int × Int) :
    bucketErase p rc key q =
      if q = rc then (p rc).map (fun b => b.erase key) else p q := by
  unfold bucketErase
  cases hb : p rc <;> by_cases hq : q = rc <;> simp [posSet_apply, hq, hb]

theorem bucketAdd_mem_self (b : List String) (key : String) : key ∈ bucketAdd b key := by
  unfold bucketAdd
  split <;> simp_all

theorem bucketAdd_mem_of (b : List String) (key k : String) (h : k ∈ b) :
    k ∈ bucketAdd b key := by
  unfold bucketAdd
  split <;> simp [h]

/-- Case characterization of `update`: absent key, sentinel coordinates —
the whole state is unchanged. -/
theorem update_none_sentinel (s : MState) (key : String) (row col : Int)
    (hm : s.map key = none) (hrc : row = -1 ∨ col = -1) :
    update s key row col = s := by
  simp [update, hm, hrc]

/-- Case characterization of `update`: absent key, real coordinates — only
the `(row, col)` bucket changes, gaining `key`. -/
theorem update_none_real (s : MState) (key : String) (row col : Int)
    (hm : s.map key = none) (hrc : ¬ (row = -1 ∨ col = -1)) :
    update s key row col =
      { s with
        pos := posSet s.pos (row, col) (bucketAdd ((s.pos (row, col)).getD []) key) } := by
  simp [update, hm, hrc]

/-- Case characterization of `update`: present key, sentinel coordinates —
the entry is detached and `key` is erased from the `(row, col)` bucket. -/
theorem update_some_sentinel (s : MState) (key : String) (row col : Int)
    (item : IImageCache) (hm : s.map key = some item) (hrc : row = -1 ∨ col = -1) :
    update s key row col =
      { s with pos := bucketErase s.pos (row, col) key,
               map := mapSet s.map key { item with row := row, col := col } } := by
  simp [update, hm, hrc]

/-- Case characterization of `update`: present key, real coordinates — the
entry is moved and `key` is erased from, then re-added to, the `(row, col)`
bucket. -/
theorem update_some_real (s : MState) (key : String) (row col : Int)
    (item : IImageCache) (hm : s.map key = some item) (hrc : ¬ (row = -1 ∨ col = -1)) :
    update s key row col =
      { s with pos := posSet (bucketErase s.pos (row, col) key) (row, col)
                 (bucketAdd ((bucketErase s.pos (row, col) key (row, col)).getD []) key),
               map := mapSet s.map key { item with row := row, col := col } } := by
  simp [update, hm, hrc]

/-- The primary index after `update`: the entry of `key` gets the new
coordinates; other keys are untouched. -/
theorem update_map_apply (s : MState) (key : String) (row col : Int) (k : String) :
    (update s key row col).map k =
      if k = key then (s.map key).map (fun item => { item with row := row, col := col })
      else s.map k := by
  by_cases hrc : row = -1 ∨ col = -1 <;> cases hm : s.map key
  · rw [update_none_sentinel s key row col hm hrc]
    by_cases hk : k = key <;> simp [hk, hm]
  · rw [update_some_sentinel s key row col _ hm hrc]
    simp [mapSet_apply]
  · rw [update_none_real s key row col hm hrc]
    by_cases hk : k = key <;> simp [hk, hm]
  · rw [update_some_real s key row col _ hm hrc]
    simp [mapSet_apply]

theorem update_log (s : MState) (key : String) (row col : Int) :
    (update s key row col).log = s.log := by
  by_cases hrc : row = -1 ∨ col = -1 <;> cases hm : s.map key
  · rw [update_none_sentinel s key row col hm hrc]
  · rw [update_some_sentinel s key row col _ hm hrc]
  · rw [update_none_real s key row col hm hrc]
  · rw [update_some_real s key row col _ hm hrc]

theorem update_nextId (s : MState) (key : String) (row col : Int) :
    (update s key row col).nextId = s.nextId := by
  by_cases hrc : row = -1 ∨ col = -1 <;> cases hm : s.map key
  · rw [update_none_sentinel s key row col hm hrc]
  · rw [update_some_sentinel s key row col _ hm hrc]
  · rw [update_none_real s key row col hm hrc]
  · rw [update_some_real s key row col _ hm hrc]

/-- Buckets other than the one at the new `(row, col)` are untouched by
`update`. -/
theorem update_pos_other (s : MState) (key : String) (row col : Int)
    (q : Int × Int) (hq : q ≠ (row, col)) :
    (update s key row col).pos q = s.pos q := by
  by_cases hrc : row = -1 ∨ col = -1 <;> cases hm : s.map key
  · rw [update_none_sentinel s key row col hm hrc]
  · rw [update_some_sentinel s key row col _ hm hrc]
    simp [bucketErase_apply, hq]
  · rw [update_none_real s key row col hm hrc]
    simp [posSet_apply, hq]
  · rw [update_some_real s key row col _ hm hrc]
    simp [posSet_apply, bucketErase_apply, hq]

/-- Membership of other keys in any bucket is preserved by `update`. -/
theorem update_pos_mem_other (s : MState) (key : String) (row col : Int)
    (q : Int × Int) (k : String) (hk : k ≠ key)
    (h : k ∈ (s.pos q).getD []) :
    k ∈ ((update s key row col).pos q).getD [] := by
  by_cases hq : q = (row, col)
  · subst hq
    have herase : k ∈ ((bucketErase s.pos (row, col) key) (row, col)).getD [] := by
      rw [bucketErase_apply]
      cases hb : s.pos (row, col)
      · simp [hb] at h
      · simp only [if_pos rfl, hb, Option.map_some, Option.getD_some]
        exact (List.mem_erase_of_ne hk).mpr (by simpa [hb] using h)
    by_cases hrc : row = -1 ∨ col = -1 <;> cases hm : s.map key
    · rwa [update_none_sentinel s key row col hm hrc]
    · rw [update_some_sentinel s key row col _ hm hrc]
      exact herase
    · rw [update_none_real s key row col hm hrc]
      simp only [posSet_apply, if_pos rfl, Option.getD_some]
      exact bucketAdd_mem_of _ key k h
    · rw [update_some_real s key row col _ hm hrc]
      simp only [posSet_apply, if_pos rfl, Option.getD_some]
      exact bucketAdd_mem_of _ key k herase
  · rw [update_pos_other s key row col q hq]
    exact h

/-- After `update key row col` with non-sentinel coordinates, `key` is a
member of the bucket at `(row, col)`. -/
theorem update_pos_mem_self (s : MState) (key : String) (row col : Int)
    (hrow : row ≠ -1) (hcol : col ≠ -1) :
    key ∈ ((update s key row col).pos (row, col)).getD [] := by
  have hrc : ¬ (row = -1 ∨ col = -1) := by
    rintro (h | h)
    · exact hrow h
    · exact hcol h
  cases hm : s.map key
  · rw [update_none_real s key row col hm hrc]
    simp only [posSet_apply, if_pos rfl, Option.getD_some]
    exact bucketAdd_mem_self _ key
  · rw [update_some_real s key row col _ hm hrc]
    simp only [posSet_apply, if_pos rfl, Option.getD_some]
    exact bucketAdd_mem_self _ key

theorem evictKey_map_apply (s : MState) (key : String) (k : String) :
    (evictKey s key).map k = if k = key then none else s.map k := by
  unfold evictKey
  cases hm : s.map key <;> simp [mapDel_apply]

theorem evictKey_pos (s : MState) (key : String) : (evictKey s key).pos = s.pos := by
  unfold evictKey
  cases hm : s.map key <;> simp

theorem evictKey_nextId (s : MState) (key : String) :
    (evictKey s key).nextId = s.nextId := by
  unfold evictKey
  cases hm : s.map key <;> simp

theorem evictKey_log (s : MState) (key : String) :
    (evictKey s key).log =
      s.log ++ (match s.map key with | some item => [item.disp] | none => []) := by
  unfold evictKey
  cases hm : s.map key <;> simp [hm]

theorem foldl_evict_pos (keys : List String) (s : MState) :
    (keys.foldl evictKey s).pos = s.pos := by
  induction keys generalizing s with
  | nil => rfl
  | cons key rest ih => rw [List.foldl_cons, ih, evictKey_pos]

theorem foldl_evict_nextId (keys : List String) (s : MState) :
    (keys.foldl evictKey s).nextId = s.nextId := by
  induction keys generalizing s with
  | nil => rfl
  | cons key rest ih => rw [List.foldl_cons, ih, evictKey_nextId]

theorem foldl_evict_map_not_mem (keys : List String) (s : MState) (k : String)
    (h : k ∉ keys) : (keys.foldl evictKey s).map k = s.map k := by
  induction keys generalizing s with
  | nil => rfl
  | cons key rest ih =>
      rw [List.foldl_cons, ih _ (fun hr => h (List.mem_cons_of_mem key hr)),
        evictKey_map_apply]
      have hk : k ≠ key := fun hk => h (hk ▸ List.mem_cons_self key rest)
      rw [if_neg hk]

theorem foldl_evict_map_mem (keys : List String) (s : MState) (k : String)
    (h : k ∈ keys) : (keys.foldl evictKey s).map k = none := by
  induction keys generalizing s with
  | nil => exact absurd h (List.not_mem_nil k)
  | cons key rest ih =>
      rw [List.foldl_cons]
      by_cases hr : k ∈ rest
      · exact ih _ hr
      · have hk : k = key := by
          rcases List.mem_cons.mp h with h1 | h2
          · exact h1
          · exact absurd h2 hr
        rw [foldl_evict_map_not_mem rest _ k hr, evictKey_map_apply, if_pos hk]

theorem foldl_evict_log_mono (keys : List String) (s : MState) (d : Nat)
    (h : d ∈ s.log) : d ∈ (keys.foldl evictKey s).log := by
  induction keys generalizing s with
  | nil => exact h
  | cons key rest ih =>
      rw [List.foldl_cons]
      refine ih _ ?_
      rw [evictKey_log]
      exact List.mem_append_left _ h

theorem foldl_evict_disp (keys : List String) (s : MState) (k : String)
    (e : IImageCache) (hk : k ∈ keys) (hm : s.map k = some e) :
    e.disp ∈ (keys.foldl evictKey s).log := by
  induction keys generalizing s with
  | nil => exact absurd hk (List.not_mem_nil k)
  | cons key rest ih =>
      rw [List.foldl_cons]
      by_cases hkey : k = key
      · subst hkey
        refine foldl_evict_log_mono rest _ e.disp ?_
        rw [evictKey_log, hm]
        exact List.mem_append_right _ (List.mem_singleton.mpr rfl)
      · have hr : k ∈ rest := by
          rcases List.mem_cons.mp hk with h1 | h2
          · exact absurd h1 hkey
          · exact h2
        refine ih _ hr ?_
        rw [evictKey_map_apply, if_neg hkey]
        exact hm

/-- Case characterization of `deleteByPosition` when the bucket exists. -/
theorem deleteByPosition_some (s : MState) (row col : Int) (bucket : List String)
    (hb : s.pos (row, col) = some bucket) :
    deleteByPosition s row col =
      { bucket.foldl evictKey s with
        pos := posDel (bucket.foldl evictKey s).pos (row, col) } := by
  simp [deleteByPosition, hb]

/-- Case characterization of `deleteByPosition` when the bucket is absent. -/
theorem deleteByPosition_none (s : MState) (row col : Int)
    (hb : s.pos (row, col) = none) : deleteByPosition s row col = s := by
  simp [deleteByPosition, hb]

theorem recordGet_aux (l : List IImageCache) (k : String) (e : IImageCache)
    (acc : Option IImageCache) (h : ∀ x ∈ l, x.key = k → x = e) :
    l.foldl (fun acc x => if x.key = k then some x else acc) acc =
      if l.any (fun x => x.key = k) then some e else acc := by
  induction l generalizing acc with
  | nil => simp
  | cons y l' ih =>
      rw [List.foldl_cons,
        ih _ (fun x hx hxk => h x (List.mem_cons_of_mem y hx) hxk)]
      by_cases hy : y.key = k
      · have hye : y = e := h y (List.mem_cons_self y l') hy
        by_cases hl : l'.any (fun x => x.key = k) <;> simp [hy, hye, hl]
      · by_cases hl : l'.any (fun x => x.key = k) <;> simp [hy, hl]

/-- When every entry of `l` whose `key` field equals `k` is `e`, and one
such entry exists, the record lookup yields `e`. -/
theorem recordGet_eq (l : List IImageCache) (k : String) (e : IImageCache)
    (huniq : ∀ x ∈ l, x.key = k → x = e) (hex : e ∈ l) (hek : e.key = k) :
    recordGet l k = some e := by
  unfold recordGet
  rw [recordGet_aux l k e none huniq]
  have : l.any (fun x => x.key = k) := by
    exact List.any_eq_true.mpr ⟨e, hex, by simp [hek]⟩
  simp [this]

/-- When no entry of `l` has `key` field `k`, the record lookup is empty. -/
theorem recordGet_none (l : List IImageCache) (k : String)
    (h : ∀ x ∈ l, x.key ≠ k) : recordGet l k = none := by
  unfold recordGet
  induction l with
  | nil => rfl
  | cons y l' ih =>
      rw [List.foldl_cons, if_neg (h y (List.mem_cons_self y l'))]
      exact ih (fun x hx => h x (List.mem_cons_of_mem y hx))

end ImageCacheMap

/-! The inductive invariant of reachable cache states. -/

open ImageCacheMap

/-- Invariant of reachable `ImageCacheMap` states: every stored entry
carries its own map key, a disposable id drawn before the current counter,
not yet disposed; distinct keys hold distinct disposable ids; an entry
with non-sentinel coordinates is a member of the bucket at its
coordinates; the dispose log has no duplicates and only ids drawn so far.
(The position index may hold additional stale keys — `update` does not
clean the source bucket of a move — which is exactly what refutes the
"at most one bucket" half of the spec's coherence invariant.) -/
def Inv (s : MState) : Prop :=
  (∀ k e, s.map k = some e →
    e.key = k ∧ e.disp < s.nextId ∧ e.disp ∉ s.log ∧
      (e.row ≠ -1 → e.col ≠ -1 → k ∈ ((s.pos (e.row, e.col)).getD []))) ∧
  (∀ k₁ e₁ k₂ e₂, s.map k₁ = some e₁ → s.map k₂ = some e₂ → k₁ ≠ k₂ →
    e₁.disp ≠ e₂.disp) ∧
  s.log.Nodup ∧
  (∀ d ∈ s.log, d < s.nextId)

/-- The invariant, with the bucket-membership clause waived for one key
(the key about to be re-positioned by an `update`). -/
def InvAt (s : MState) (key : String) : Prop :=
  (∀ k e, s.map k = some e →
    e.key = k ∧ e.disp < s.nextId ∧ e.disp ∉ s.log ∧
      (k ≠ key → e.row ≠ -1 → e.col ≠ -1 → k ∈ ((s.pos (e.row, e.col)).getD []))) ∧
  (∀ k₁ e₁ k₂ e₂, s.map k₁ = some e₁ → s.map k₂ = some e₂ → k₁ ≠ k₂ →
    e₁.disp ≠ e₂.disp) ∧
  s.log.Nodup ∧
  (∀ d ∈ s.log, d < s.nextId)

theorem Inv.toInvAt (s : MState) (key : String) (h : Inv s) : InvAt s key := by
  obtain ⟨h1, h2, h3, h4⟩ := h
  exact ⟨fun k e hm => ⟨(h1 k e hm).1, (h1 k e hm).2.1, (h1 k e hm).2.2.1,
    fun _ => (h1 k e hm).2.2.2⟩, h2, h3, h4⟩

theorem inv_init : Inv initState := by
  refine ⟨fun k e hm => ?_, fun k₁ e₁ k₂ e₂ hm₁ => ?_, List.nodup_nil, fun d hd => ?_⟩
  · exact absurd hm (by simp [initState])
  · exact absurd hm₁ (by simp [initState])
  · exact absurd hd (List.not_mem_nil d)

/-- `update` restores the full invariant from the waived one: the moved
key ends up in its new bucket (or detached), and nothing else moves. -/
theorem invAt_update (s : MState) (key : String) (row col : Int)
    (h : InvAt s key) : Inv (update s key row col) := by
  obtain ⟨h1, h2, h3, h4⟩ := h
  refine ⟨fun k e hm => ?_, fun k₁ e₁ k₂ e₂ hm₁ hm₂ hne => ?_, ?_, fun d hd => ?_⟩
  · rw [update_map_apply] at hm
    by_cases hk : k = key
    · subst hk
      rw [if_pos rfl] at hm
      cases hmk : s.map k with
      | none => rw [hmk] at hm; exact absurd hm (by simp)
      | some item =>
          rw [hmk] at hm
          simp at hm
          obtain ⟨hkey, hdisp, hlog, _⟩ := h1 k item hmk
          subst hm
          refine ⟨hkey, by simpa [update_nextId] using hdisp,
            by simpa [update_log] using hlog, fun hr hc => ?_⟩
          simp only
          exact update_pos_mem_self s k row col hr hc
    · rw [if_neg hk] at hm
      obtain ⟨hkey, hdisp, hlog, hmem⟩ := h1 k e hm
      refine ⟨hkey, by simpa [update_nextId] using hdisp,
        by simpa [update_log] using hlog, fun hr hc => ?_⟩
      exact update_pos_mem_other s key row col (e.row, e.col) k hk (hmem hk hr hc)
  · rw [update_map_apply] at hm₁ hm₂
    have disp_of :
        ∀ k0 e0, (if k0 = key then
            (s.map key).map (fun item => { item with row := row, col := col })
          else s.map k0) = some e0 → ∃ e0', s.map k0 = some e0' ∧ e0'.disp = e0.disp := by
      intro k0 e0 hm0
      by_cases hk0 : k0 = key
      · subst hk0
        rw [if_pos rfl] at hm0
        cases hmk : s.map k0 with
        | none => rw [hmk] at hm0; exact absurd hm0 (by simp)
        | some item =>
            rw [hmk] at hm0
            simp at hm0
            exact ⟨item, rfl, by rw [← hm0]⟩
      · rw [if_neg hk0] at hm0
        exact ⟨e0, hm0, rfl⟩
    obtain ⟨e₁', hm₁', hd₁⟩ := disp_of k₁ e₁ hm₁
    obtain ⟨e₂', hm₂', hd₂⟩ := disp_of k₂ e₂ hm₂
    rw [← hd₁, ← hd₂]
    exact h2 k₁ e₁' k₂ e₂' hm₁' hm₂' hne
  · rw [update_log]
    exact h3
  · rw [update_log] at hd
    rw [update_nextId]
    exact h4 d hd

theorem inv_evictKey (s : MState) (key : String) (h : Inv s) : Inv (evictKey s key) := by
  obtain ⟨h1, h2, h3, h4⟩ := h
  have hmap : ∀ k e, (evictKey s key).map k = some e → k ≠ key ∧ s.map k = some e := by
    intro k e hm
    rw [evictKey_map_apply] at hm
    by_cases hk : k = key
    · rw [if_pos hk] at hm; exact absurd hm (by simp)
    · rw [if_neg hk] at hm; exact ⟨hk, hm⟩
  have hlog : (evictKey s key).log =
      s.log ++ (match s.map key with | some item => [item.disp] | none => []) :=
    evictKey_log s key
  refine ⟨fun k e hm => ?_, fun k₁ e₁ k₂ e₂ hm₁ hm₂ hne => ?_, ?_, fun d hd => ?_⟩
  · obtain ⟨hk, hm'⟩ := hmap k e hm
    obtain ⟨hkey, hdisp, hnlog, hmem⟩ := h1 k e hm'
    refine ⟨hkey, by rwa [evictKey_nextId], ?_, fun hr hc => ?_⟩
    · rw [hlog]
      cases hmk : s.map key with
      | none => simpa using hnlog
      | some item =>
          simp only [List.mem_append, List.mem_singleton]
          rintro (hin | hdispeq)
          · exact hnlog hin
          · exact h2 k e key item hm' hmk hk hdispeq
    · rw [evictKey_pos]
      exact hmem hr hc
  · obtain ⟨_, hm₁'⟩ := hmap k₁ e₁ hm₁
    obtain ⟨_, hm₂'⟩ := hmap k₂ e₂ hm₂
    exact h2 k₁ e₁ k₂ e₂ hm₁' hm₂' hne
  · rw [hlog]
    cases hmk : s.map key with
    | none => simpa using h3
    | some item =>
        refine List.Nodup.append h3 (List.nodup_singleton _) ?_
        intro d hd1 hd2
        rw [List.mem_singleton] at hd2
        subst hd2
        exact (h1 key item hmk).2.2.1 hd1
  · rw [hlog] at hd
    rw [evictKey_nextId]
    cases hmk : s.map key with
    | none =>
        rw [hmk] at hd
        simp only [List.append_nil] at hd
        exact h4 d hd
    | some item =>
        rw [hmk] at hd
        rcases List.mem_append.mp hd with hin | hin
        · exact h4 d hin
        · rw [List.mem_singleton] at hin
          subst hin
          exact (h1 key item hmk).2.1

theorem inv_foldl_evict (keys : List String) (s : MState) (h : Inv s) :
    Inv (keys.foldl evictKey s) := by
  induction keys generalizing s with
  | nil => exact h
  | cons key rest ih => exact ih _ (inv_evictKey s key h)

theorem inv_deleteByPosition (s : MState) (row col : Int) (h : Inv s) :
    Inv (deleteByPosition s row col) := by
  cases hb : s.pos (row, col) with
  | none => rwa [deleteByPosition_none s row col hb]
  | some bucket =>
      rw [deleteByPosition_some s row col bucket hb]
      set s1 := bucket.foldl evictKey s with hs1
      have hinv1 : Inv s1 := inv_foldl_evict bucket s h
      obtain ⟨g1, g2, g3, g4⟩ := hinv1
      refine ⟨fun k e hm => ?_, g2, g3, g4⟩
      obtain ⟨hkey, hdisp, hnlog, hmem⟩ := g1 k e hm
      refine ⟨hkey, hdisp, hnlog, fun hr hc => ?_⟩
      have hkb : k ∉ bucket := by
        intro hkb
        rw [foldl_evict_map_mem bucket s k hkb] at hm
        exact Option.noConfusion hm
      have hq : (e.row, e.col) ≠ ((row : Int), (col : Int)) := by
        intro hq
        have hms : s.map k = some e := by
          rw [← foldl_evict_map_not_mem bucket s k hkb]
          exact hm
        have := ((h.1) k e hms).2.2.2 hr hc
        rw [hq, hb] at this
        exact hkb (by simpa using this)
      simp only [posDel_apply, if_neg hq]
      exact hmem hr hc

theorem inv_applyOp (s : MState) (op : CacheOp) (h : Inv s) : Inv (applyOp s op) := by
  cases op with
  | set key row col status =>
      show Inv (ImageCacheMap.set { s with nextId := s.nextId + 1 } key
        { row := row, col := col, key := key, status := status, disp := s.nextId })
      rw [ImageCacheMap.set]
      refine invAt_update _ key row col ?_
      obtain ⟨h1, h2, h3, h4⟩ := h
      refine ⟨fun k e hm => ?_, fun k₁ e₁ k₂ e₂ hm₁ hm₂ hne => ?_, h3,
        fun d hd => Nat.lt_succ_of_lt (h4 d hd)⟩
      · simp only [mapSet_apply] at hm
        by_cases hk : k = key
        · rw [if_pos hk] at hm
          cases hm
          exact ⟨hk.symm, Nat.lt_succ_self _, fun hin => Nat.lt_irrefl _ (h4 _ hin),
            fun hkk _ _ => absurd hk hkk⟩
        · rw [if_neg hk] at hm
          obtain ⟨hkey, hdisp, hnlog, hmem⟩ := h1 k e hm
          exact ⟨hkey, Nat.lt_succ_of_lt hdisp, hnlog, fun _ => hmem⟩
      · simp only [mapSet_apply] at hm₁ hm₂
        by_cases hk₁ : k₁ = key <;> by_cases hk₂ : k₂ = key
        · exact absurd (hk₁.trans hk₂.symm) hne
        · rw [if_pos hk₁] at hm₁
          rw [if_neg hk₂] at hm₂
          cases hm₁
          exact fun hdd => Nat.lt_irrefl _ (hdd ▸ (h1 k₂ e₂ hm₂).2.1)
        · rw [if_neg hk₁] at hm₁
          rw [if_pos hk₂] at hm₂
          cases hm₂
          exact fun hdd => Nat.lt_irrefl _ (hdd ▸ (h1 k₁ e₁ hm₁).2.1)
        · rw [if_neg hk₁] at hm₁
          rw [if_neg hk₂] at hm₂
          exact h2 k₁ e₁ k₂ e₂ hm₁ hm₂ hne
  | update key row col => exact invAt_update s key row col (h.toInvAt s key)
  | delete key =>
      exact inv_evictKey _ key (invAt_update s key (-1) (-1) (h.toInvAt s key))
  | deleteByPosition row col => exact inv_deleteByPosition s row col h
  | teardown => exact h

theorem inv_foldl_ops (ops : List CacheOp) (s : MState) (h : Inv s) :
    Inv (ops.foldl applyOp s) := by
  induction ops generalizing s with
  | nil => exact h
  | cons op rest ih => exact ih _ (inv_applyOp s op h)

/-- Every state reachable by a sequence of cache operations satisfies the
invariant. -/
theorem inv_runOps (ops : List CacheOp) : Inv (runOps ops) :=
  inv_foldl_ops ops initState inv_init

/-! Claim theorems. -/

/-- C1 (amended): for every sequence of set/update/delete/deleteByPosition
operations and every key `k` in the primary index whose entry's position
`(r, c)` has neither coordinate equal to the `-1` sentinel, `k` is a member
of the position bucket at `(r, c)` and `getByPosition(r, c)` contains `k`
bound to that entry.  (The second half of the original claim — that `k`
appears in at most one bucket — is false; see the counterexample: `update`
removes the key from the destination bucket, not from the source bucket of
the move, so stale memberships persist.) -/
theorem C1_index_coherence (ops : List CacheOp) (k : String) (e : IImageCache)
    (hm : (runOps ops).map k = some e) (hr : e.row ≠ -1) (hc : e.col ≠ -1) :
    k ∈ (((runOps ops).pos (e.row, e.col)).getD []) ∧
    ImageCacheMap.getByPosition (runOps ops) e.row e.col k = some e := by
  obtain ⟨h1, _, _, _⟩ := inv_runOps ops
  obtain ⟨hkey, _, _, hmem⟩ := h1 k e hm
  have hbucket := hmem hr hc
  refine ⟨hbucket, ?_⟩
  unfold ImageCacheMap.getByPosition
  refine recordGet_eq _ k e ?_ ?_ hkey
  · intro x hx hxk
    unfold ImageCacheMap.getByPositionEntries at hx
    rw [List.mem_filterMap] at hx
    obtain ⟨a, _, hax⟩ := hx
    have hxa : x.key = a := (h1 a x hax).1
    have hak : a = k := by rw [← hxa, hxk]
    rw [hak, hm] at hax
    exact (Option.some.injEq _ _).mp hax.symm
  · unfold ImageCacheMap.getByPositionEntries
    rw [List.mem_filterMap]
    exact ⟨k, hbucket, hm⟩

/-- C1 counterexample: after `set("k", (0,0))` then `update("k", 1, 1)` the
key `k` is simultaneously a member of the buckets at `(0,0)` and `(1,1)`
(and `getByPosition(0,0)` still reports it), refuting the claim that a key
appears in at most one position bucket. -/
theorem C1_counterexample :
    (runOps [.set "k" 0 0 .loading, .update "k" 1 1]).map "k" =
      some { row := 1, col := 1, key := "k", status := .loading, disp := 0 } ∧
    "k" ∈ (((runOps [.set "k" 0 0 .loading, .update "k" 1 1]).pos (0, 0)).getD []) ∧
    "k" ∈ (((runOps [.set "k" 0 0 .loading, .update "k" 1 1]).pos (1, 1)).getD []) ∧
    ImageCacheMap.getByPosition (runOps [.set "k" 0 0 .loading, .update "k" 1 1]) 0 0 "k" =
      some { row := 1, col := 1, key := "k", status := .loading, disp := 0 } := by
  decide

/-- C1 witness: the theorem applied to the one-operation trace that stores
`k` at `(2, 3)`. -/
theorem C1_witness :
    (runOps [.set "k" 2 3 .loading]).map "k" =
      some { row := 2, col := 3, key := "k", status := .loading, disp := 0 } ∧
    ((2 : Int) ≠ -1) ∧ ((3 : Int) ≠ -1) ∧
    ("k" ∈ (((runOps [.set "k" 2 3 .loading]).pos (2, 3)).getD []) ∧
     ImageCacheMap.getByPosition (runOps [.set "k" 2 3 .loading]) 2 3 "k" =
       some { row := 2, col := 3, key := "k", status := .loading, disp := 0 }) :=
  ⟨by decide, by decide, by decide,
    C1_index_coherence [.set "k" 2 3 .loading] "k"
      { row := 2, col := 3, key := "k", status := .loading, disp := 0 }
      (by decide) (by decide) (by decide)⟩

/-- C2 (amended): over every operation sequence — including service
teardown — each disposable is disposed at most once (the dispose log never
repeats an id).  The original "exactly once, never zero" is refuted by the
counterexample: teardown does not release entry disposers, and a `set`
overwriting a live key orphans the old entry's disposer. -/
theorem C2_dispose_at_most_once (ops : List CacheOp) (d : Nat) :
    ((runOps ops).log).count d ≤ 1 :=
  List.nodup_iff_count_le_one.mp (inv_runOps ops).2.2.1 d

/-- C2 counterexample: the trace `set("k"); teardown` creates one entry
(whose disposer has id 0, witnessed by the counter reaching 1) yet the
dispose log stays empty — the disposer is invoked zero times over the
entry's lifetime.  Likewise `set("a"); set("a"); delete("a")` disposes only
id 1: the first entry's disposer (id 0) is never invoked although the entry
was irrecoverably overwritten. -/
theorem C2_counterexample :
    (runOps [.set "k" 0 0 .loading, .teardown]).nextId = 1 ∧
    (runOps [.set "k" 0 0 .loading, .teardown]).log = [] ∧
    (runOps [.set "a" 0 0 .loading, .set "a" 0 0 .loading, .delete "a"]).log = [1] := by
  decide

/-- Auxiliary: adding a key that is absent from the primary index to a
bucket does not change the entries the bucket yields. -/
theorem filterMap_bucketAdd (s : MState) (b : List String) (key : String)
    (h : s.map key = none) : (bucketAdd b key).filterMap s.map = b.filterMap s.map := by
  unfold bucketAdd
  split
  · rfl
  · rw [List.filterMap_append]
    simp [h]

/-- C7 (amended): `update(key, row, col)` on a key absent from the primary
index raises no error, creates no entry, and leaves the primary index, the
dispose log and every `getByPosition` result unchanged — but, contrary to
the claim of a complete no-op, when neither coordinate is `-1` it does
mutate the position index by inserting the key into the `(row, col)`
bucket (invisible to lookups only until a later `set` of the same key). -/
theorem C7_update_absent_key (s : MState) (key : String) (row col : Int)
    (h : s.map key = none) :
    (∀ k, (update s key row col).map k = s.map k) ∧
    (update s key row col).log = s.log ∧
    (update s key row col).nextId = s.nextId ∧
    (∀ r c, ImageCacheMap.getByPositionEntries (update s key row col) r c =
      ImageCacheMap.getByPositionEntries s r c) ∧
    (¬ (row = -1 ∨ col = -1) →
      key ∈ (((update s key row col).pos (row, col)).getD [])) := by
  refine ⟨fun k => ?_, update_log s key row col, update_nextId s key row col,
    fun r c => ?_, fun hrc => ?_⟩
  · rw [update_map_apply]
    by_cases hk : k = key
    · rw [if_pos hk, hk, h]
      rfl
    · rw [if_neg hk]
  · by_cases hrc : row = -1 ∨ col = -1
    · rw [update_none_sentinel s key row col h hrc]
    · rw [update_none_real s key row col h hrc]
      unfold ImageCacheMap.getByPositionEntries
      by_cases hq : ((r, c) : Int × Int) = (row, col)
      · simp only [posSet_apply, hq, if_pos rfl, Option.getD_some]
        exact filterMap_bucketAdd s _ key h
      · simp only [posSet_apply, if_neg hq]
  · cases hm0 : s.map key with
    | some item => exact absurd hm0 (by simp [h])
    | none =>
        rw [update_none_real s key row col h hrc]
        simp only [posSet_apply, if_pos rfl, Option.getD_some]
        exact bucketAdd_mem_self _ key

/-- C7 counterexample: on the empty cache, `update("k", 0, 0)` adds `k` to
the `(0, 0)` bucket even though no entry exists — and the pollution is
observable: a later `set("k", (5,5))` makes `getByPosition(0, 0)` report
the entry although it was never at `(0, 0)`. -/
theorem C7_counterexample :
    (ImageCacheMap.update initState "k" 0 0).pos (0, 0) = some ["k"] ∧
    initState.pos (0, 0) = none ∧
    ImageCacheMap.getByPosition (runOps [.update "k" 0 0, .set "k" 5 5 .loading]) 0 0 "k" =
      some { row := 5, col := 5, key := "k", status := .loading, disp := 0 } := by
  decide

/-- C7 witness: the amended theorem applied on the empty cache at key `k`
and position `(4, 6)`. -/
theorem C7_witness :
    initState.map "k" = none ∧
    ((ImageCacheMap.update initState "k" 4 6).map "k" = initState.map "k" ∧
     (ImageCacheMap.update initState "k" 4 6).log = initState.log ∧
     ImageCacheMap.getByPositionEntries (ImageCacheMap.update initState "k" 4 6) 4 6 =
       ImageCacheMap.getByPositionEntries initState 4 6 ∧
     "k" ∈ (((ImageCacheMap.update initState "k" 4 6).pos (4, 6)).getD [])) := by
  have h := C7_update_absent_key initState "k" 4 6 rfl
  exact ⟨rfl, h.1 "k", h.2.1, h.2.2.2.1 4 6, h.2.2.2.2 (by decide)⟩

/-- C8 (amended): `deleteByPosition(row, col)` evicts exactly the entries
whose key lies in the `(row, col)` position bucket: each such entry is
removed and its disposer released; entries whose key is not in that bucket
are untouched.  The original claim — that precisely the entries whose
CURRENT position is `(row, col)` are evicted — is refuted by the
counterexample, because a moved entry can still lie in its old bucket. -/
theorem C8_deleteByPosition_evicts_bucket (s : MState) (row col : Int)
    (k : String) (e : IImageCache) :
    (k ∈ ((s.pos (row, col)).getD []) →
      (deleteByPosition s row col).map k = none) ∧
    (k ∈ ((s.pos (row, col)).getD []) → s.map k = some e →
      e.disp ∈ (deleteByPosition s row col).log) ∧
    (k ∉ ((s.pos (row, col)).getD []) →
      (deleteByPosition s row col).map k = s.map k) := by
  cases hb : s.pos (row, col) with
  | none =>
      rw [deleteByPosition_none s row col hb]
      refine ⟨fun hk => ?_, fun hk => ?_, fun _ => rfl⟩ <;> simp at hk
  | some bucket =>
      rw [deleteByPosition_some s row col bucket hb]
      simp only [Option.getD_some]
      exact ⟨fun hk => foldl_evict_map_mem bucket s k hk,
        fun hk hm => foldl_evict_disp bucket s k e hk hm,
        fun hk => foldl_evict_map_not_mem bucket s k hk⟩

/-- C8 counterexample: `set("k", (0,0)); update("k", 1, 1)` leaves `k` in
the stale `(0,0)` bucket while its current position is `(1,1)`; the
subsequent `deleteByPosition(0, 0)` nevertheless evicts it (entry gone,
disposer 0 released) — an entry whose current position differs from the
argument position was removed. -/
theorem C8_counterexample :
    (runOps [.set "k" 0 0 .loading, .update "k" 1 1]).map "k" =
      some { row := 1, col := 1, key := "k", status := .loading, disp := 0 } ∧
    (runOps [.set "k" 0 0 .loading, .update "k" 1 1, .deleteByPosition 0 0]).map "k" =
      none ∧
    (runOps [.set "k" 0 0 .loading, .update "k" 1 1, .deleteByPosition 0 0]).log = [0] := by
  decide

/-- C8 witness: the amended theorem applied to the state holding `k` at
`(0, 0)` and `j` at `(1, 1)`. -/
theorem C8_witness :
    "k" ∈ (((runOps [.set "k" 0 0 .loading, .set "j" 1 1 .loading]).pos (0, 0)).getD []) ∧
    "j" ∉ (((runOps [.set "k" 0 0 .loading, .set "j" 1 1 .loading]).pos (0, 0)).getD []) ∧
    (runOps [.set "k" 0 0 .loading, .set "j" 1 1 .loading]).map "k" =
      some { row := 0, col := 0, key := "k", status := .loading, disp := 0 } ∧
    ((deleteByPosition (runOps [.set "k" 0 0 .loading, .set "j" 1 1 .loading]) 0 0).map "k" =
      none ∧
     (0 : Nat) ∈ (deleteByPosition (runOps [.set "k" 0 0 .loading, .set "j" 1 1 .loading]) 0 0).log ∧
     (deleteByPosition (runOps [.set "k" 0 0 .loading, .set "j" 1 1 .loading]) 0 0).map "j" =
       (runOps [.set "k" 0 0 .loading, .set "j" 1 1 .loading]).map "j") := by
  have h := C8_deleteByPosition_evicts_bucket
    (runOps [.set "k" 0 0 .loading, .set "j" 1 1 .loading]) 0 0
  exact ⟨by decide, by decide, by decide,
    (h "k" { row := 0, col := 0, key := "k", status := .loading, disp := 0 }).1 (by decide),
    (h "k" { row := 0, col := 0, key := "k", status := .loading, disp := 0 }).2.1
      (by decide) (by decide),
    (h "j" { row := 0, col := 0, key := "k", status := .loading, disp := 0 }).2.2 (by decide)⟩

/-- C9: lookups are total and read-only.  In this embedding every lookup
is a pure function of the state (mirroring the source, which only reads
through optional chaining and never throws): an unknown `unitId` or
`subUnitId` scope yields `none` from both service lookups, an unknown key
yields `none` from `getByKey`, and an unknown position yields the empty
entry list and an empty record from `getByPosition`. -/
theorem C9_lookups_total (svc : ServiceState) (unitId subUnitId key : String)
    (row col : Int) (s : MState) (um : String → Option MState) :
    (svc.imageMaps unitId = none →
      getImageCache svc unitId subUnitId row col = none ∧
      getImageElementByKey svc unitId subUnitId key = none) ∧
    (svc.imageMaps unitId = some um → um subUnitId = none →
      getImageCache svc unitId subUnitId row col = none ∧
      getImageElementByKey svc unitId subUnitId key = none) ∧
    (s.map key = none → ImageCacheMap.getByKey s key = none) ∧
    (s.pos (row, col) = none →
      ImageCacheMap.getByPositionEntries s row col = [] ∧
      (∀ k2, ImageCacheMap.getByPosition s row col k2 = none)) := by
  refine ⟨fun h => ?_, fun h h2 => ?_, fun h => h, fun h => ?_⟩
  · simp [getImageCache, getImageElementByKey, h]
  · simp [getImageCache, getImageElementByKey, h, h2]
  · have hent : ImageCacheMap.getByPositionEntries s row col = [] := by
      unfold ImageCacheMap.getByPositionEntries
      rw [h]
      rfl
    exact ⟨hent, fun k2 => by
      unfold ImageCacheMap.getByPosition
      rw [hent]
      rfl⟩

/-- C9 witness: the theorem applied to the empty service state and the
empty cache state at an unknown scope, key and position. -/
theorem C9_witness :
    (ServiceState.mk (fun _ => none)).imageMaps "u" = none ∧
    (getImageCache (ServiceState.mk (fun _ => none)) "u" "s" 3 4 = none ∧
     getImageElementByKey (ServiceState.mk (fun _ => none)) "u" "s" "key1" = none) ∧
    initState.map "key1" = none ∧
    ImageCacheMap.getByKey initState "key1" = none ∧
    initState.pos (3, 4) = none ∧
    (ImageCacheMap.getByPositionEntries initState 3 4 = [] ∧
     ImageCacheMap.getByPosition initState 3 4 "key1" = none) := by
  have h := C9_lookups_total (ServiceState.mk (fun _ => none)) "u" "s" "key1" 3 4
    initState (fun _ => none)
  exact ⟨rfl, h.1 rfl, rfl, h.2.2.1 rfl, rfl,
    (h.2.2.2 rfl).1, (h.2.2.2 rfl).2 "key1"⟩

/-- C10: over every reachable state, every entry returned by a position
lookup is also present in the primary index under its own key (`getByKey`
returns the very same entry), its key really lies in the queried bucket,
and conversely a key absent from the primary index never shows up in any
`getByPosition` record — stale bucket contents are invisible to readers. -/
theorem C10_no_dangling_entries (ops : List CacheOp) (r c : Int) (e : IImageCache)
    (h : e ∈ ImageCacheMap.getByPositionEntries (runOps ops) r c) :
    ImageCacheMap.getByKey (runOps ops) e.key = some e ∧
    e.key ∈ (((runOps ops).pos (r, c)).getD []) ∧
    (∀ k, (runOps ops).map k = none →
      ImageCacheMap.getByPosition (runOps ops) r c k = none) := by
  obtain ⟨h1, _, _, _⟩ := inv_runOps ops
  have hmem := h
  unfold ImageCacheMap.getByPositionEntries at hmem
  rw [List.mem_filterMap] at hmem
  obtain ⟨a, ha, hae⟩ := hmem
  have hkey : e.key = a := (h1 a e hae).1
  refine ⟨by rw [ImageCacheMap.getByKey, hkey]; exact hae, by rw [hkey]; exact ha,
    fun k hk => ?_⟩
  unfold ImageCacheMap.getByPosition
  refine recordGet_none _ k ?_
  intro x hx hxk
  unfold ImageCacheMap.getByPositionEntries at hx
  rw [List.mem_filterMap] at hx
  obtain ⟨b, _, hbx⟩ := hx
  have hxb : x.key = b := (h1 b x hbx).1
  rw [hxk] at hxb
  rw [← hxb] at hbx
  rw [hk] at hbx
  exact Option.noConfusion hbx

/-- C10 witness: the theorem applied to the state where `a` sits at
`(0, 0)` in a bucket that also retains the stale key `g` of a deleted
entry — the lookup yields exactly the live entry, and the stale key yields
nothing. -/
theorem C10_witness :
    { row := 0, col := 0, key := "a", status := LoadStatus.loading, disp := 1 } ∈
      ImageCacheMap.getByPositionEntries
        (runOps [.set "g" 0 0 .loading, .set "a" 0 0 .loading, .delete "g"]) 0 0 ∧
    (ImageCacheMap.getByKey
        (runOps [.set "g" 0 0 .loading, .set "a" 0 0 .loading, .delete "g"]) "a" =
      some { row := 0, col := 0, key := "a", status := LoadStatus.loading, disp := 1 } ∧
     "a" ∈ (((runOps [.set "g" 0 0 .loading, .set "a" 0 0 .loading, .delete "g"]).pos
        (0, 0)).getD []) ∧
     ImageCacheMap.getByPosition
        (runOps [.set "g" 0 0 .loading, .set "a" 0 0 .loading, .delete "g"]) 0 0 "g" =
       none) := by
  have h := C10_no_dangling_entries
    [.set "g" 0 0 .loading, .set "a" 0 0 .loading, .delete "g"] 0 0
    { row := 0, col := 0, key := "a", status := LoadStatus.loading, disp := 1 }
    (by decide)
  exact ⟨by decide, h.1, h.2.1, h.2.2 "g" (by decide)⟩

/-- C5: the range-watch callback registered in `_handleMatrix`, fired for a
key with `after = null`, removes the bound entry: it is no longer
retrievable by key, its disposer is released, and no `getByPosition` record
at any coordinates reports the key; fired with a non-null `after`
rectangle, it moves the entry to `(after.startRow, after.startColumn)` —
the entry is never left holding stale coordinates. -/
theorem C5_detach_on_collapse (ops : List CacheOp) (key : String) (e : IImageCache)
    (r2 c2 : Int) (hm : (runOps ops).map key = some e) :
    ImageCacheMap.getByKey (watchCallback (runOps ops) key none) key = none ∧
    e.disp ∈ (watchCallback (runOps ops) key none).log ∧
    (∀ r c, ImageCacheMap.getByPosition (watchCallback (runOps ops) key none) r c key =
      none) ∧
    (watchCallback (runOps ops) key (some (r2, c2))).map key =
      some { e with row := r2, col := c2 } := by
  obtain ⟨h1, _, _, _⟩ := inv_runOps ops
  have hdel : watchCallback (runOps ops) key none =
      evictKey (update (runOps ops) key (-1) (-1)) key := rfl
  have hupd : (update (runOps ops) key (-1) (-1)).map key =
      some { e with row := -1, col := -1 } := by
    rw [update_map_apply, if_pos rfl, hm]
    rfl
  have hdelmap : ∀ k, (watchCallback (runOps ops) key none).map k =
      if k = key then none else (runOps ops).map k := by
    intro k
    rw [hdel, evictKey_map_apply]
    by_cases hk : k = key
    · rw [if_pos hk, if_pos hk]
    · rw [if_neg hk, if_neg hk, update_map_apply, if_neg hk]
  refine ⟨?_, ?_, fun r c => ?_, ?_⟩
  · show (watchCallback (runOps ops) key none).map key = none
    rw [hdelmap key, if_pos rfl]
  · rw [hdel, evictKey_log, hupd]
    rw [update_log]
    exact List.mem_append_right _ (List.mem_singleton.mpr rfl)
  · unfold ImageCacheMap.getByPosition
    refine recordGet_none _ key ?_
    intro x hx hxk
    unfold ImageCacheMap.getByPositionEntries at hx
    rw [List.mem_filterMap] at hx
    obtain ⟨a, _, hax⟩ := hx
    by_cases hak : a = key
    · rw [hdelmap a, if_pos hak] at hax
      exact Option.noConfusion hax
    · rw [hdelmap a, if_neg hak] at hax
      have : x.key = a := (h1 a x hax).1
      exact hak (by rw [← hxk, this])
  · show (update (runOps ops) key r2 c2).map key = some { e with row := r2, col := c2 }
    rw [update_map_apply, if_pos rfl, hm]
    rfl

/-- C5 witness: the theorem applied to the entry stored at `(2, 3)`, with
the collapse callback checked at position `(2, 3)` and the move callback
sending it to `(5, 7)`. -/
theorem C5_witness :
    (runOps [.set "k" 2 3 .loading]).map "k" =
      some { row := 2, col := 3, key := "k", status := .loading, disp := 0 } ∧
    (ImageCacheMap.getByKey (watchCallback (runOps [.set "k" 2 3 .loading]) "k" none) "k" =
      none ∧
     (0 : Nat) ∈ (watchCallback (runOps [.set "k" 2 3 .loading]) "k" none).log ∧
     ImageCacheMap.getByPosition (watchCallback (runOps [.set "k" 2 3 .loading]) "k" none)
       2 3 "k" = none ∧
     (watchCallback (runOps [.set "k" 2 3 .loading]) "k" (some (5, 7))).map "k" =
       some { row := 5, col := 7, key := "k", status := .loading, disp := 0 }) := by
  have h := C5_detach_on_collapse [.set "k" 2 3 .loading] "k"
    { row := 2, col := 3, key := "k", status := .loading, disp := 0 } 5 7 (by decide)
  exact ⟨by decide, h.1, h.2.1, h.2.2.1 2 3, h.2.2.2⟩

/-- Auxiliary for C6: the `_handleMatrix` per-cell loop never issues a
load for a key that the snapshotted position record already contains. -/
theorem handleCell_fold_aux (s : MState) (row col : Int) (k : String)
    (h : (ImageCacheMap.getByPosition s row col k).isSome)
    (keys : List String) (acc : MState × List String) (hacc : k ∉ acc.2) :
    k ∉ (keys.foldl
      (fun acc key =>
        match ImageCacheMap.getByPosition s row col key with
        | some _ => acc
        | none =>
            (ImageCacheMap.set { acc.1 with nextId := acc.1.nextId + 1 } key
              { row := row, col := col, key := key, status := .loading,
                disp := acc.1.nextId },
             acc.2 ++ [key])) acc).2 := by
  induction keys generalizing acc with
  | nil => exact hacc
  | cons key rest ih =>
      rw [List.foldl_cons]
      cases hic : ImageCacheMap.getByPosition s row col key with
      | some e =>
          simp only [hic]
          exact ih acc hacc
      | none =>
          simp only [hic]
          refine ih _ ?_
          intro hk
          rcases List.mem_append.mp hk with h1 | h2
          · exact hacc h1
          · rw [List.mem_singleton] at h2
            subst h2
            rw [hic] at h
            exact absurd h (by simp)

/-- C6 (amended): the at-most-one-load guard is per position, not per key:
when the position record snapshotted by `_handleMatrix` already contains an
entry under key `k`, no load is issued for `k` while handling that cell.
(The original global claim — no second load for `k` anywhere before the
first entry reaches a terminal state — is refuted by the counterexample:
the same key observed at a different position is loaded again.) -/
theorem C6_load_skipped_when_cached (s : MState) (row col : Int)
    (drawingsOrder : List String) (k : String)
    (h : (ImageCacheMap.getByPosition s row col k).isSome) :
    k ∉ (handleCell s row col drawingsOrder).2 := by
  unfold handleCell
  by_cases he : drawingsOrder.isEmpty
  · rw [if_pos he]
    exact List.not_mem_nil k
  · rw [if_neg he]
    exact handleCell_fold_aux s row col k h drawingsOrder (s, []) (List.not_mem_nil k)

/-- C6 counterexample: handling the cell `(0,0)` with drawing key `k`
issues a load and leaves the entry in the `loading` state; handling the
cell `(1,1)` with the same key, while that entry is still loading, issues
a second load for `k` — refuting "no second load is issued for k between
the first set and its terminal state". -/
theorem C6_counterexample :
    (handleCell initState 0 0 ["k"]).2 = ["k"] ∧
    ImageCacheMap.getByKey (handleCell initState 0 0 ["k"]).1 "k" =
      some { row := 0, col := 0, key := "k", status := .loading, disp := 0 } ∧
    (handleCell (handleCell initState 0 0 ["k"]).1 1 1 ["k"]).2 = ["k"] := by
  decide

/-- C6 witness: the amended theorem applied to the state already holding
`k` at `(0, 0)`: re-observing that cell with drawings `[k, j]` issues no
load for `k`. -/
theorem C6_witness :
    (ImageCacheMap.getByPosition (runOps [.set "k" 0 0 .loading]) 0 0 "k").isSome ∧
    "k" ∉ (handleCell (runOps [.set "k" 0 0 .loading]) 0 0 ["k", "j"]).2 :=
  ⟨by decide,
    C6_load_skipped_when_cached (runOps [.set "k" 0 0 .loading]) 0 0 ["k", "j"] "k"
      (by decide)⟩

/-- Columns not listed keep their widths. -/
theorem applyWidthInfos_not_mem (infos : List IColAutoWidthInfo) (w : Worksheet)
    (c : Nat) (h : c ∉ infos.map (fun i => i.col)) : applyWidthInfos infos w c = w c := by
  induction infos generalizing w with
  | nil => rfl
  | cons i rest ih =>
      rw [List.map_cons] at h
      have hc : c ≠ i.col := fun hc => h (hc ▸ List.mem_cons_self _ _)
      have hr : c ∉ rest.map (fun i => i.col) :=
        fun hr => h (List.mem_cons_of_mem _ hr)
      unfold applyWidthInfos at ih ⊢
      rw [List.foldl_cons, ih _ hr, if_neg hc]

/-- Applying the restore list built from `w0` yields `w0` on the listed
columns and the underlying worksheet elsewhere. -/
theorem applyWidthInfos_restore (infos : List IColAutoWidthInfo) (w0 w : Worksheet)
    (c : Nat) :
    applyWidthInfos (infos.map (fun i => { i with width := w0 i.col })) w c =
      if c ∈ infos.map (fun i => i.col) then w0 c else w c := by
  induction infos generalizing w with
  | nil => simp [applyWidthInfos]
  | cons i rest ih =>
      unfold applyWidthInfos at ih ⊢
      rw [List.map_cons, List.foldl_cons, ih]
      by_cases h1 : c ∈ rest.map (fun i => i.col)
      · simp [h1]
      · by_cases h2 : c = i.col
        · simp [h1, h2]
        · simp [h1, h2]

/-- Redo-then-undo round trip at the list level: writing new widths and
then writing back the previously captured widths restores every column. -/
theorem applyWidthInfos_round_trip (infos : List IColAutoWidthInfo) (w : Worksheet)
    (c : Nat) :
    applyWidthInfos (infos.map (fun i => { i with width := w i.col }))
      (applyWidthInfos infos w) c = w c := by
  rw [applyWidthInfos_restore]
  by_cases h : c ∈ infos.map (fun i => i.col)
  · rw [if_pos h]
  · rw [if_neg h]
    exact applyWidthInfos_not_mem infos w c h

/-- C3: when synthesis succeeds (active sheet id non-empty, skeleton
current), `getUndoRedoParamsOfColWidth` emits exactly one redo mutation
carrying the freshly computed widths and one undo mutation whose payload
the factory captures from the worksheet as it is at synthesis time — the
pre-mutation state, since the interceptor synthesizes before the command's
mutations run — and applying the redo mutation then the undo mutation
restores every column width exactly. -/
theorem C3_undo_redo_round_trip (env : AutoWidthEnv) (ranges : List IRange)
    (hs : env.subUnitId ≠ "") (hk : env.hasSkeleton = true) :
    (getUndoRedoParamsOfColWidth env ranges).redos =
      [{ id := SetWorksheetColAutoWidthMutationId,
         params := { unitId := env.unitId, subUnitId := env.subUnitId,
                     colsAutoWidthInfo := env.calculateAutoWidthInRange ranges } }] ∧
    (getUndoRedoParamsOfColWidth env ranges).undos =
      [{ id := SetWorksheetColAutoWidthMutationId,
         params := SetWorksheetColAutoWidthMutationFactory
           { unitId := env.unitId, subUnitId := env.subUnitId,
             colsAutoWidthInfo := env.calculateAutoWidthInRange ranges }
           env.worksheet }] ∧
    (∀ c, applyColAutoWidthMutation
        (SetWorksheetColAutoWidthMutationFactory
          { unitId := env.unitId, subUnitId := env.subUnitId,
            colsAutoWidthInfo := env.calculateAutoWidthInRange ranges } env.worksheet)
        (applyColAutoWidthMutation
          { unitId := env.unitId, subUnitId := env.subUnitId,
            colsAutoWidthInfo := env.calculateAutoWidthInRange ranges } env.worksheet)
        c = env.worksheet c) := by
  have hcond : ¬ (env.subUnitId = "" ∨ env.hasSkeleton = false) := by
    rintro (h | h)
    · exact hs h
    · rw [hk] at h
      exact Bool.noConfusion h
  refine ⟨?_, ?_, fun c => ?_⟩
  · simp [getUndoRedoParamsOfColWidth, hcond]
  · simp [getUndoRedoParamsOfColWidth, hcond]
  · unfold applyColAutoWidthMutation SetWorksheetColAutoWidthMutationFactory
    exact applyWidthInfos_round_trip (env.calculateAutoWidthInRange ranges)
      env.worksheet c

/-- The redo parameter bundle the synthesizer builds for `ranges`. -/
def colAutoWidthRedoParams (env : AutoWidthEnv) (ranges : List IRange) :
    MutationParams :=
  { unitId := env.unitId, subUnitId := env.subUnitId,
    colsAutoWidthInfo := env.calculateAutoWidthInRange ranges }

/-- The single redo mutation descriptor of a successful synthesis. -/
def colAutoWidthRedoMutation (env : AutoWidthEnv) (ranges : List IRange) : Mutation :=
  { id := SetWorksheetColAutoWidthMutationId, params := colAutoWidthRedoParams env ranges }

/-- The single undo mutation descriptor of a successful synthesis. -/
def colAutoWidthUndoMutation (env : AutoWidthEnv) (ranges : List IRange) : Mutation :=
  { id := SetWorksheetColAutoWidthMutationId,
    params := SetWorksheetColAutoWidthMutationFactory (colAutoWidthRedoParams env ranges)
      env.worksheet }

/-- The successful shape of `getUndoRedoParamsOfColWidth`: one undo and
one redo mutation, with the factory-built and freshly computed payloads. -/
theorem getUndoRedoParams_shape (env : AutoWidthEnv) (ranges : List IRange)
    (hs : env.subUnitId ≠ "") (hk : env.hasSkeleton = true) :
    getUndoRedoParamsOfColWidth env ranges =
      { undos := [colAutoWidthUndoMutation env ranges],
        redos := [colAutoWidthRedoMutation env ranges] } := by
  have hcond : ¬ (env.subUnitId = "" ∨ env.hasSkeleton = false) := by
    rintro (h | h)
    · exact hs h
    · rw [hk] at h
      exact Bool.noConfusion h
  simp [getUndoRedoParamsOfColWidth, hcond, colAutoWidthUndoMutation,
    colAutoWidthRedoMutation, colAutoWidthRedoParams]

/-- A concrete environment used by the witnesses: active sheet `s1`, a
current skeleton computing widths for columns 0 and 2, and one selection. -/
def testEnv : AutoWidthEnv :=
  { unitId := "u1", subUnitId := "s1", hasSkeleton := true,
    calculateAutoWidthInRange :=
      fun _ => [{ col := 0, width := 42 }, { col := 2, width := 9 }],
    worksheet := fun c => (c : Int) + 100,
    selections :=
      some [{ startRow := 0, startColumn := 0, endRow := 1, endColumn := 2 }] }

/-- The same environment with no current skeleton. -/
def noSkelEnv : AutoWidthEnv :=
  { testEnv with hasSkeleton := false }

/-- C3 witness: the theorem applied to `testEnv` over its selection
ranges; the round trip is checked at columns 0 (written) and 5 (not
written). -/
theorem C3_witness :
    testEnv.subUnitId ≠ "" ∧ testEnv.hasSkeleton = true ∧
    (getUndoRedoParamsOfColWidth testEnv []).redos = [colAutoWidthRedoMutation testEnv []] ∧
    (getUndoRedoParamsOfColWidth testEnv []).undos = [colAutoWidthUndoMutation testEnv []] ∧
    applyColAutoWidthMutation
      (SetWorksheetColAutoWidthMutationFactory
        { unitId := testEnv.unitId, subUnitId := testEnv.subUnitId,
          colsAutoWidthInfo := testEnv.calculateAutoWidthInRange [] } testEnv.worksheet)
      (applyColAutoWidthMutation
        { unitId := testEnv.unitId, subUnitId := testEnv.subUnitId,
          colsAutoWidthInfo := testEnv.calculateAutoWidthInRange [] } testEnv.worksheet)
      0 = testEnv.worksheet 0 ∧
    applyColAutoWidthMutation
      (SetWorksheetColAutoWidthMutationFactory
        { unitId := testEnv.unitId, subUnitId := testEnv.subUnitId,
          colsAutoWidthInfo := testEnv.calculateAutoWidthInRange [] } testEnv.worksheet)
      (applyColAutoWidthMutation
        { unitId := testEnv.unitId, subUnitId := testEnv.subUnitId,
          colsAutoWidthInfo := testEnv.calculateAutoWidthInRange [] } testEnv.worksheet)
      5 = testEnv.worksheet 5 := by
  have h := C3_undo_redo_round_trip testEnv [] (by decide) rfl
  exact ⟨by decide, rfl, h.1, h.2.1, h.2.2 0, h.2.2 5⟩

/-- C4 (amended): the synthesizer yields the empty no-op pair whenever the
command id does not match, the style is not layout-affecting, or no
selection ranges resolve — and ALSO (this case is missing from the claim)
whenever the active sheet id is empty or no skeleton is current; in the
remaining cases it yields exactly one undo and one redo mutation
descriptor, each carrying the full per-range metric list. -/
theorem C4_synthesizer_output_shape (env : AutoWidthEnv) (cmdS : StyleCommand)
    (cmdA : ColIsAutoWidthCommand) (sels : List IRange) :
    (cmdS.id ≠ SetStyleCommandId →
      interceptSetStyle env cmdS = { undos := [], redos := [] }) ∧
    (¬ AFFECT_LAYOUT_STYLES.contains cmdS.styleType →
      interceptSetStyle env cmdS = { undos := [], redos := [] }) ∧
    (env.selections = none →
      interceptSetStyle env cmdS = { undos := [], redos := [] }) ∧
    (env.selections = some [] →
      interceptSetStyle env cmdS = { undos := [], redos := [] }) ∧
    (cmdA.id ≠ SetWorksheetColIsAutoWidthCommandId →
      interceptColIsAutoWidth env cmdA = { undos := [], redos := [] }) ∧
    (cmdS.id = SetStyleCommandId → AFFECT_LAYOUT_STYLES.contains cmdS.styleType →
      env.selections = some sels → sels ≠ [] → env.subUnitId ≠ "" →
      env.hasSkeleton = true →
      (interceptSetStyle env cmdS).undos = [colAutoWidthUndoMutation env sels] ∧
      (interceptSetStyle env cmdS).redos = [colAutoWidthRedoMutation env sels]) ∧
    (cmdA.id = SetWorksheetColIsAutoWidthCommandId → env.subUnitId ≠ "" →
      env.hasSkeleton = true →
      (interceptColIsAutoWidth env cmdA).undos =
        [colAutoWidthUndoMutation env cmdA.ranges] ∧
      (interceptColIsAutoWidth env cmdA).redos =
        [colAutoWidthRedoMutation env cmdA.ranges]) := by
  refine ⟨fun h => ?_, fun h => ?_, fun h => ?_, fun h => ?_, fun h => ?_,
    fun hid hsty hsel hne hs hk => ?_, fun hid hs hk => ?_⟩
  · unfold interceptSetStyle
    rw [if_pos h]
  · unfold interceptSetStyle
    by_cases hid : cmdS.id = SetStyleCommandId
    · rw [if_neg (not_not_intro hid), if_pos h]
    · rw [if_pos hid]
  · unfold interceptSetStyle
    by_cases hid : cmdS.id = SetStyleCommandId
    · rw [if_neg (not_not_intro hid)]
      by_cases hsty : ¬ (AFFECT_LAYOUT_STYLES.contains cmdS.styleType = true)
      · rw [if_pos hsty]
      · rw [if_neg hsty]
        simp only [h]
    · rw [if_pos hid]
  · unfold interceptSetStyle
    by_cases hid : cmdS.id = SetStyleCommandId
    · rw [if_neg (not_not_intro hid)]
      by_cases hsty : ¬ (AFFECT_LAYOUT_STYLES.contains cmdS.styleType = true)
      · rw [if_pos hsty]
      · rw [if_neg hsty]
        simp only [h]
        rfl
    · rw [if_pos hid]
  · unfold interceptColIsAutoWidth
    rw [if_pos h]
  · have hres : interceptSetStyle env cmdS = getUndoRedoParamsOfColWidth env sels := by
      have hempty : ¬ (sels.isEmpty = true) := by
        cases sels with
        | nil => exact absurd rfl hne
        | cons a l => simp
      unfold interceptSetStyle
      rw [if_neg (not_not_intro hid), if_neg (not_not_intro hsty)]
      simp only [hsel]
      rw [if_neg hempty]
    rw [hres, getUndoRedoParams_shape env sels hs hk]
    exact ⟨rfl, rfl⟩
  · have hres : interceptColIsAutoWidth env cmdA =
        getUndoRedoParamsOfColWidth env cmdA.ranges := by
      unfold interceptColIsAutoWidth
      rw [if_neg (not_not_intro hid)]
    rw [hres, getUndoRedoParams_shape env cmdA.ranges hs hk]
    exact ⟨rfl, rfl⟩

/-- C4 counterexample: with a matching `SetStyleCommand`, a
layout-affecting style (`fs`) and a non-empty selection — every condition
the claim lists for synthesis — the synthesizer still yields the empty
pair when no skeleton is current, contradicting "otherwise the result
contains exactly one undo and one redo mutation descriptor". -/
theorem C4_counterexample :
    ({ id := SetStyleCommandId, styleType := "fs" } : StyleCommand).id =
      SetStyleCommandId ∧
    AFFECT_LAYOUT_STYLES.contains "fs" = true ∧
    noSkelEnv.selections =
      some [{ startRow := 0, startColumn := 0, endRow := 1, endColumn := 2 }] ∧
    interceptSetStyle noSkelEnv { id := SetStyleCommandId, styleType := "fs" } =
      { undos := [], redos := [] } := by
  refine ⟨rfl, by decide, rfl, ?_⟩
  simp [interceptSetStyle, noSkelEnv, testEnv, getUndoRedoParamsOfColWidth]

/-- C4 witness: the theorem applied to `testEnv` with a matching style
command and a matching column-auto-width command. -/
theorem C4_witness :
    (interceptSetStyle testEnv { id := SetStyleCommandId, styleType := "fs" }).undos =
      [colAutoWidthUndoMutation testEnv
        [{ startRow := 0, startColumn := 0, endRow := 1, endColumn := 2 }]] ∧
    (interceptSetStyle testEnv { id := SetStyleCommandId, styleType := "fs" }).redos =
      [colAutoWidthRedoMutation testEnv
        [{ startRow := 0, startColumn := 0, endRow := 1, endColumn := 2 }]] ∧
    (interceptColIsAutoWidth testEnv
        { id := SetWorksheetColIsAutoWidthCommandId, ranges := [] }).undos.length = 1 ∧
    (interceptColIsAutoWidth testEnv
        { id := SetWorksheetColIsAutoWidthCommandId, ranges := [] }).redos.length = 1 ∧
    (interceptSetStyle noSkelEnv { id := "other", styleType := "fs" }) =
      { undos := [], redos := [] } := by
  have h := C4_synthesizer_output_shape testEnv
    { id := SetStyleCommandId, styleType := "fs" }
    { id := SetWorksheetColIsAutoWidthCommandId, ranges := [] }
    [{ startRow := 0, startColumn := 0, endRow := 1, endColumn := 2 }]
  have h6 := h.2.2.2.2.2.1 rfl (by decide) rfl (by decide) (by decide) rfl
  have h7 := h.2.2.2.2.2.2 rfl (by decide) rfl
  have h5 := (C4_synthesizer_output_shape noSkelEnv
    { id := "other", styleType := "fs" }
    { id := SetWorksheetColIsAutoWidthCommandId, ranges := [] } []).1 (by decide)
  exact ⟨h6.1, h6.2, by rw [h7.1]; rfl, by rw [h7.2]; rfl, h5⟩

end Univer

